import Mathlib

/-! reqstat: the JSON shape analyzer, its renderer, and the JSON sniffing of a response.

A shallow embedding of `internal/analyzer/analyzer.go` and of `Result.IsJSON` from
`internal/client/result.go`, followed by theorems about them.

Conventions of the embedding.

* A Go `string` (and a `[]byte`) is a sequence of bytes: `GoString` is a list of byte values.
  `len(s)` is the list length, `s[:n]` is `List.take n`, `+` is `++`, and `<` on strings is the
  lexicographic order on the byte lists. `str` turns a source literal into its UTF-8 bytes.
* A decoded JSON value (`any` holding `nil`, `bool`, `float64`, `string`, `[]any` or
  `map[string]any`) is a `Value`. A `map[string]any` is an association list; Go gives no
  iteration order to a map, which is the order of the list here. `float64` values coming out of
  the decoder are finite, and are represented by their exact rational value.
* `schema *Schema` is threaded through `analyzeValue` as explicit state; a `strings.Builder`
  is the text written so far.
* Library code that is not part of the repository enters as a parameter (`json.Unmarshal`, the
  `%q` verb, the implementation-dependent result of an out-of-range `int(float64)` conversion)
  or as a small model (`sort.Strings`, `strings.Repeat`, `%d`, `%.2f`, `%t`, `http.Header.Get`).
* The counters are Go `int`s that only ever grow by `len` of a slice or map of the decoded
  document, far below `2^63`; they are natural numbers here.
-/

/-- A Go string: its bytes. -/
abbrev GoString := List Nat

/-- The bytes (UTF-8) of a source literal. -/
def str (s : String) : GoString :=
  s.data.flatMap (fun c => (String.utf8EncodeChar c).map UInt8.toNat)

namespace analyzer

/-- A value produced by `json.Unmarshal` into an `any`; `other` stands for a value of any other
dynamic type, which only the `default` branch of `analyzeValue` can meet. -/
inductive Value where
  | null
  | bool (b : Bool)
  | number (x : ℚ)
  | string (s : GoString)
  | array (items : List Value)
  | object (entries : List (GoString × Value))
  | other

/-- The seven `FieldType` constants. -/
inductive FieldType where
  | TypeString
  | TypeNumber
  | TypeBool
  | TypeNull
  | TypeObject
  | TypeArray
  | TypeUnknown
deriving DecidableEq, Repr

/-- The string value of a `FieldType` constant, as `%s` prints it. -/
def FieldType.toGoString : FieldType → GoString
  | .TypeString => str "string"
  | .TypeNumber => str "number"
  | .TypeBool => str "bool"
  | .TypeNull => str "null"
  | .TypeObject => str "object"
  | .TypeArray => str "array"
  | .TypeUnknown => str "unknown"

/-- The dynamic values stored in `Field.Example`. -/
inductive Any where
  | nil
  | bool (b : Bool)
  | float64 (x : ℚ)
  | string (s : GoString)
deriving DecidableEq

/-- The struct `Field` (the Go field `Type` is spelled `Type_`). -/
structure Field where
  Name : GoString
  Type_ : FieldType
  Children : List Field
  Example : Any
  Count : Nat

/-- The struct `Schema`; `Root` is a pointer and may be nil. -/
structure Schema where
  Root : Option Field
  TotalKeys : Nat
  MaxDepth : Nat
  ArrayItems : Nat

/-- The map index expression `v[k]`: the value stored under `k`, and nil when there is none. -/
def mapIndex (v : List (GoString × Value)) (k : GoString) : Value :=
  match v with
  | [] => Value.null
  | (k', x) :: rest => if k = k' then x else mapIndex rest k

/-- The keys collected by `for k := range v`. -/
def mapKeys (v : List (GoString × Value)) : List GoString := v.map Prod.fst

/-- The result of `sort.Strings`: the keys in ascending byte-wise lexicographic order. -/
def sortStrings (keys : List GoString) : List GoString :=
  List.insertionSort (fun a b => a ≤ b) keys

/-- The statement `if depth > schema.MaxDepth { schema.MaxDepth = depth }`. -/
def Schema.noteDepth (schema : Schema) (depth : Nat) : Schema :=
  if depth > schema.MaxDepth then { schema with MaxDepth := depth } else schema

/-- The statement `schema.ArrayItems += n`. -/
def Schema.addArrayItems (schema : Schema) (n : Nat) : Schema :=
  { schema with ArrayItems := schema.ArrayItems + n }

/-- The statement `schema.TotalKeys += n`. -/
def Schema.addTotalKeys (schema : Schema) (n : Nat) : Schema :=
  { schema with TotalKeys := schema.TotalKeys + n }

/-- One round of the loop `for _, k := range keys`: analyse the value under `k` with the schema
reached so far and append the child. -/
def appendChild (analyze : GoString → Schema → Field × Schema)
    (acc : List Field × Schema) (k : GoString) : List Field × Schema :=
  let c := analyze k acc.2
  (acc.1 ++ [c.1], c.2)

mutual
/-- The function `analyzeValue`. In the object case the call
`analyzeValue(k, v[k], depth+1, schema)` is `analyzeIndex v k (depth + 1) schema`, which looks
`k` up in `v` and analyses what it finds (see `analyzeIndex_eq`). -/
def analyzeValue (name : GoString) (value : Value) (depth : Nat) (schema : Schema) :
    Field × Schema :=
  let schema := schema.noteDepth depth
  match value with
  | .null =>
    ({ Name := name, Type_ := .TypeNull, Children := [], Example := .nil, Count := 1 }, schema)
  | .bool v =>
    ({ Name := name, Type_ := .TypeBool, Children := [], Example := .bool v, Count := 1 }, schema)
  | .number v =>
    ({ Name := name, Type_ := .TypeNumber, Children := [], Example := .float64 v, Count := 1 },
      schema)
  | .string v =>
    if v.length > 50 then
      ({ Name := name, Type_ := .TypeString, Children := [],
         Example := .string (v.take 50 ++ str "..."), Count := 1 }, schema)
    else
      ({ Name := name, Type_ := .TypeString, Children := [], Example := .string v, Count := 1 },
        schema)
  | .array v =>
    let schema := schema.addArrayItems v.length
    match v with
    | [] =>
      ({ Name := name, Type_ := .TypeArray, Children := [], Example := .nil, Count := 1 }, schema)
    | v0 :: rest =>
      let r := analyzeValue (str "[item]") v0 (depth + 1) schema
      ({ Name := name, Type_ := .TypeArray, Children := [r.1], Example := .nil,
         Count := (v0 :: rest).length }, r.2)
  | .object v =>
    let schema := schema.addTotalKeys v.length
    let keys := sortStrings (mapKeys v)
    let r := keys.foldl (appendChild (fun k s => analyzeIndex v k (depth + 1) s)) ([], schema)
    ({ Name := name, Type_ := .TypeObject, Children := r.1, Example := .nil, Count := 1 }, r.2)
  | .other =>
    ({ Name := name, Type_ := .TypeUnknown, Children := [], Example := .nil, Count := 1 }, schema)
termination_by structural value
/-- The call `analyzeValue(k, v[k], depth, schema)` for a map `v`. -/
def analyzeIndex (v : List (GoString × Value)) (k : GoString) (depth : Nat) (schema : Schema) :
    Field × Schema :=
  match v with
  | [] =>
    ({ Name := k, Type_ := .TypeNull, Children := [], Example := .nil, Count := 1 },
      schema.noteDepth depth)
  | (k', x) :: rest =>
    if k = k' then analyzeValue k x depth schema else analyzeIndex rest k depth schema
termination_by structural v
end

/-- The function `AnalyzeJSON`, over the decoder `json.Unmarshal`. The Go result pair
`(*Schema, error)` is a pair of options. -/
def AnalyzeJSON {ε : Type} (unmarshal : GoString → Except ε Value) (data : GoString) :
    Option Schema × Option ε :=
  match unmarshal data with
  | .error err => (none, some err)
  | .ok parsed =>
    let schema : Schema := { Root := none, TotalKeys := 0, MaxDepth := 0, ArrayItems := 0 }
    let r := analyzeValue (str "root") parsed 0 schema
    (some { r.2 with Root := some r.1 }, none)

/-! ### Rendering -/

/-- The function `strings.Repeat`. -/
def Repeat (s : GoString) : Nat → GoString
  | 0 => []
  | n + 1 => s ++ Repeat s n

/-- The verb `%d`: the decimal digits of an integer, with `-` in front of a negative one. -/
def fmtInt (i : Int) : GoString := str (toString i)

/-- The verb `%t`. -/
def fmtBool (b : Bool) : GoString := if b then str "true" else str "false"

/-- The verb `%.2f` on the exact value of a finite float64: the value rounded to two decimals,
a tie going to the even last digit, written with a sign for a negative value, an integer part
and exactly two decimals. -/
def fmtFixed2 (x : ℚ) : GoString :=
  let scaled := x.num.natAbs * 100
  let q := scaled / x.den
  let r := scaled % x.den
  let n := if 2 * r > x.den ∨ (2 * r = x.den ∧ q % 2 = 1) then q + 1 else q
  (if x < 0 then str "-" else []) ++ str (toString (n / 100)) ++ str "."
    ++ str (toString (n % 100 / 10)) ++ str (toString (n % 10))

/-- The number of binary digits of a natural number (`fuel` bounds the recursion). -/
def bitLenAux : Nat → Nat → Nat
  | 0, _ => 0
  | fuel + 1, n => if n = 0 then 0 else 1 + bitLenAux fuel (n / 2)

/-- The number of binary digits of a natural number. -/
def bitLen (n : Nat) : Nat := bitLenAux n n

/-- A natural number rounded to 53 significant bits, a tie going to the even significand. -/
def roundToSignificand (n : Nat) : Nat :=
  let sh := bitLen n - 53
  let q := n / 2 ^ sh
  let r := n % 2 ^ sh
  (if 2 * r > 2 ^ sh ∨ (2 * r = 2 ^ sh ∧ q % 2 = 1) then q + 1 else q) * 2 ^ sh

/-- The conversion `float64(i)` of an integer: exact when `i` has at most 53 significant bits,
and otherwise rounded to the nearest float64. -/
def float64OfInt (i : Int) : ℚ :=
  if i < 0 then ((-(roundToSignificand i.natAbs : Int) : Int) : ℚ)
  else (((roundToSignificand i.natAbs : Nat) : Int) : ℚ)

/-- An integer brought into the range of a 64-bit `int`. -/
def wrapInt64 (i : Int) : Int := (i + 2 ^ 63) % 2 ^ 64 - 2 ^ 63

/-- The conversion `int(e)` of a float64 on a 64-bit target: the fraction is discarded; when
the result does not fit an `int` the Go specification leaves the value to the implementation,
which is `outOfRange e` (brought into the range of an `int`). -/
def intOfFloat64 (outOfRange : ℚ → Int) (e : ℚ) : Int :=
  let t := Int.tdiv e.num e.den
  if -(2 ^ 63) ≤ t ∧ t < 2 ^ 63 then t else wrapInt64 (outOfRange e)

/-- The example annotation computed in the `default` case of `format`. -/
def exampleText (quote : GoString → GoString) (outOfRange : ℚ → Int) : Any → GoString
  | .nil => []
  | .string e => str " // e.g. " ++ quote e
  | .float64 e =>
    if e = float64OfInt (intOfFloat64 outOfRange e) then
      str " // e.g. " ++ fmtInt (intOfFloat64 outOfRange e)
    else
      str " // e.g. " ++ fmtFixed2 e
  | .bool e => str " // e.g. " ++ fmtBool e

mutual
/-- The method `(*Field).format`: the builder after the field has been written at `indent`.
`quote` is the verb `%q`. -/
def Field.format (quote : GoString → GoString) (outOfRange : ℚ → Int)
    (f : Field) (sb : GoString) (indent : Nat) : GoString :=
  let pfx := Repeat (str "  ") indent
  match f with
  | ⟨name, .TypeObject, children, _, _⟩ =>
    let sb := if name = str "root" then sb ++ str "\x7b\n"
      else sb ++ (pfx ++ name ++ str ": \x7b\n")
    let sb := formatEach quote outOfRange children sb (indent + 1)
    if name = str "root" then sb ++ str "\x7d" else sb ++ (pfx ++ str "\x7d\n")
  | ⟨name, .TypeArray, children, _, count⟩ =>
    let countInfo := if count > 1 then str " (" ++ fmtInt count ++ str " items)" else []
    match children with
    | child :: _ =>
      match child with
      | ⟨_, .TypeObject, grandchildren, _, _⟩ =>
        let sb := sb ++ (pfx ++ name ++ str ": [" ++ countInfo ++ str "\n")
        let sb := sb ++ (pfx ++ str "  \x7b\n")
        let sb := formatEach quote outOfRange grandchildren sb (indent + 2)
        let sb := sb ++ (pfx ++ str "  \x7d\n")
        sb ++ (pfx ++ str "]\n")
      | ⟨_, childType, _, _, _⟩ =>
        sb ++ (pfx ++ name ++ str ": [" ++ childType.toGoString ++ str "]" ++ countInfo
          ++ str "\n")
    | [] => sb ++ (pfx ++ name ++ str ": []" ++ countInfo ++ str "\n")
  | ⟨name, type, _, example_, _⟩ =>
    sb ++ (pfx ++ name ++ str ": " ++ type.toGoString
      ++ exampleText quote outOfRange example_ ++ str "\n")
termination_by structural f
/-- The loop `for _, child := range children { child.format(sb, indent) }`. -/
def formatEach (quote : GoString → GoString) (outOfRange : ℚ → Int)
    (children : List Field) (sb : GoString) (indent : Nat) : GoString :=
  match children with
  | [] => sb
  | child :: rest =>
    formatEach quote outOfRange rest (Field.format quote outOfRange child sb indent) indent
termination_by structural children
end

/-- The method `(*Schema).String`. -/
def Schema.String (quote : GoString → GoString) (outOfRange : ℚ → Int) (s : Schema) :
    GoString :=
  match s.Root with
  | none => str "empty"
  | some root => root.format quote outOfRange [] 0

end analyzer

namespace client

/-- The type `http.Header`, a map from canonical header names to their values. -/
abbrev Header := List (GoString × List GoString)

/-- The method `http.Header.Get` at a key in canonical form: the first value stored under
the key, and the empty string when there is none. -/
def Header.Get (h : Header) (key : GoString) : GoString :=
  match h with
  | [] => []
  | (k, vs) :: rest => if key = k then vs.headD [] else Header.Get rest key

/-- The struct `Result`, with the fields `IsJSON` reads. -/
structure Result where
  Headers : Header
  Body : GoString

/-- The method `(*Result).IsJSON`. -/
def Result.IsJSON (r : Result) : Bool :=
  let ct := Header.Get r.Headers (str "Content-Type")
  ct = str "application/json" ||
    ct = str "application/json; charset=utf-8" ||
    ct = str "application/json;charset=utf-8" ||
    ct = str "application/json; charset=UTF-8" ||
    (r.Body.length > 0 && (r.Body.headD 0 = '{'.toNat || r.Body.headD 0 = '['.toNat))

end client

namespace analyzer

/-! ### Definitions used to state the properties -/

/-- The schema `&Schema{}` that `AnalyzeJSON` starts from. -/
def Schema.fresh : Schema := { Root := none, TotalKeys := 0, MaxDepth := 0, ArrayItems := 0 }

/-- The schema `s` after a walk that started at depth `d` and that, run from a fresh schema at
depth 0, ends in `t`. -/
def Schema.absorb (s : Schema) (d : Nat) (t : Schema) : Schema :=
  { Root := s.Root, TotalKeys := s.TotalKeys + t.TotalKeys,
    MaxDepth := max s.MaxDepth (d + t.MaxDepth), ArrayItems := s.ArrayItems + t.ArrayItems }

/-- The analysis of a value from a fresh schema at depth 0. -/
def run (name : GoString) (value : Value) : Field × Schema :=
  analyzeValue name value 0 Schema.fresh

mutual
/-- Every map of the value, at any depth, has pairwise distinct keys (as every Go map has). -/
def Value.distinctKeys : Value → Bool
  | .array items => distinctKeysOfItems items
  | .object entries => decide (mapKeys entries).Nodup && distinctKeysOfEntries entries
  | _ => true
/-- Every element of the array has maps with distinct keys. -/
def distinctKeysOfItems : List Value → Bool
  | [] => true
  | v :: vs => v.distinctKeys && distinctKeysOfItems vs
/-- Every value of the map has maps with distinct keys. -/
def distinctKeysOfEntries : List (GoString × Value) → Bool
  | [] => true
  | (_, v) :: es => v.distinctKeys && distinctKeysOfEntries es
end

mutual
/-- The sum of the numbers of keys of all object nodes of a document, at any depth and in any
array position. -/
def Value.objectKeys : Value → Nat
  | .array items => objectKeysOfItems items
  | .object entries => entries.length + objectKeysOfEntries entries
  | _ => 0
/-- The object keys inside the elements of an array. -/
def objectKeysOfItems : List Value → Nat
  | [] => 0
  | v :: vs => v.objectKeys + objectKeysOfItems vs
/-- The object keys inside the values of a map. -/
def objectKeysOfEntries : List (GoString × Value) → Nat
  | [] => 0
  | (_, v) :: es => v.objectKeys + objectKeysOfEntries es
end

mutual
/-- The sum of the numbers of keys of the object nodes of a document that are reached from the
root through values of objects and first elements of arrays. -/
def Value.sampledObjectKeys : Value → Nat
  | .array [] => 0
  | .array (v0 :: _) => v0.sampledObjectKeys
  | .object entries => entries.length + sampledObjectKeysOfEntries entries
  | _ => 0
/-- The sampled object keys inside the values of a map. -/
def sampledObjectKeysOfEntries : List (GoString × Value) → Nat
  | [] => 0
  | (_, v) :: es => v.sampledObjectKeys + sampledObjectKeysOfEntries es
end

mutual
/-- The sum of the lengths of all array nodes of a document, at any depth and in any array
position. -/
def Value.arrayLengths : Value → Nat
  | .array items => items.length + arrayLengthsOfItems items
  | .object entries => arrayLengthsOfEntries entries
  | _ => 0
/-- The array lengths inside the elements of an array. -/
def arrayLengthsOfItems : List Value → Nat
  | [] => 0
  | v :: vs => v.arrayLengths + arrayLengthsOfItems vs
/-- The array lengths inside the values of a map. -/
def arrayLengthsOfEntries : List (GoString × Value) → Nat
  | [] => 0
  | (_, v) :: es => v.arrayLengths + arrayLengthsOfEntries es
end

mutual
/-- The sum of the lengths of the array nodes of a document that are reached from the root
through values of objects and first elements of arrays. -/
def Value.sampledArrayLengths : Value → Nat
  | .array [] => 0
  | .array (v0 :: rest) => (v0 :: rest).length + v0.sampledArrayLengths
  | .object entries => sampledArrayLengthsOfEntries entries
  | _ => 0
/-- The sampled array lengths inside the values of a map. -/
def sampledArrayLengthsOfEntries : List (GoString × Value) → Nat
  | [] => 0
  | (_, v) :: es => v.sampledArrayLengths + sampledArrayLengthsOfEntries es
end

mutual
/-- The depths of all nodes of a field tree whose root is at depth `d`, a child being one
deeper than its parent. -/
def Field.nodeDepths : Field → Nat → List Nat
  | ⟨_, _, children, _, _⟩, d => d :: nodeDepthsOfChildren children (d + 1)
/-- The depths of the nodes of the trees of a list of fields whose roots are at depth `d`. -/
def nodeDepthsOfChildren : List Field → Nat → List Nat
  | [], _ => []
  | c :: cs, d => c.nodeDepths d ++ nodeDepthsOfChildren cs d
end

/-- Two documents differ only in the order of the keys of their objects: equal scalars, arrays
of the same length with such elements, objects with the same keys in any order and such values
under each key. -/
inductive SameUpToKeyOrder : Value → Value → Prop
  | refl (v : Value) : SameUpToKeyOrder v v
  | array_cons {x y : Value} {xs ys : List Value} :
      SameUpToKeyOrder x y → SameUpToKeyOrder (.array xs) (.array ys) →
      SameUpToKeyOrder (.array (x :: xs)) (.array (y :: ys))
  | object {es fs : List (GoString × Value)} :
      (mapKeys es).Perm (mapKeys fs) →
      (∀ k x y, (k, x) ∈ es → (k, y) ∈ fs → SameUpToKeyOrder x y) →
      SameUpToKeyOrder (.object es) (.object fs)

/-- The value is a scalar, null, an empty array or an empty object. -/
def Value.hasNoChild : Value → Bool
  | .array (_ :: _) => false
  | .object (_ :: _) => false
  | _ => true

/-- The `FieldType` that the type switch of `analyzeValue` gives to a value. -/
def Value.fieldType : Value → FieldType
  | .null => .TypeNull
  | .bool _ => .TypeBool
  | .number _ => .TypeNumber
  | .string _ => .TypeString
  | .array _ => .TypeArray
  | .object _ => .TypeObject
  | .other => .TypeUnknown

end analyzer

namespace client

/-- The values of the `Content-Type` header that `IsJSON` accepts. -/
def acceptedContentTypes : List GoString :=
  [str "application/json", str "application/json; charset=utf-8",
   str "application/json;charset=utf-8", str "application/json; charset=UTF-8"]

/-- The byte is JSON whitespace: a space, a tab, a line feed or a carriage return. -/
def isWhitespace (b : Nat) : Bool :=
  b = ' '.toNat || b = '\t'.toNat || b = '\n'.toNat || b = '\r'.toNat

/-- The first byte of the body that is not whitespace, if there is one. -/
def firstNonWhitespace (body : GoString) : Option Nat :=
  (body.dropWhile isWhitespace).head?

/-- A response without headers whose body is ` {"a":1}`, with a space in front. -/
def resultLeadingSpace : Result :=
  { Headers := [], Body := str " \x7b\"a\":1\x7d" }

end client

namespace analyzer

/-! ### Sample documents -/

/-- The decoded document `[{"a":1},{"b":2,"c":3}]`. -/
def docTwoObjects : Value :=
  .array [.object [(str "a", .number 1)], .object [(str "b", .number 2), (str "c", .number 3)]]

/-- The decoded document `[[1],[2,3]]`. -/
def docNestedArrays : Value :=
  .array [.array [.number 1], .array [.number 2, .number 3]]

/-- The decoded document `{"a": 1, "b": [1,2,3]}`. -/
def docScenario : Value :=
  .object [(str "a", .number 1), (str "b", .array [.number 1, .number 2, .number 3])]

/-- The decoded document `{"b": [1,2,3], "a": 1}`, a map with the entries of `docScenario`
met in the other order. -/
def docScenarioSwapped : Value :=
  .object [(str "b", .array [.number 1, .number 2, .number 3]), (str "a", .number 1)]

/-- The decoded document `{"root": {"a": 1}}`. -/
def docRootKey : Value :=
  .object [(str "root", .object [(str "a", .number 1)])]

/-- The decoded document `{"count": 1e19}`. -/
def docBigCount : Value :=
  .object [(str "count", .number 10000000000000000000)]

/-- A text of seventeen characters, each the three-byte character `€`. -/
def euroText : String := "€€€€€€€€€€€€€€€€€"

/-- The Go string holding `euroText`: 17 characters, 51 bytes. -/
def seventeenEuros : GoString := str euroText

/-- The decoded document `"€€€€€€€€€€€€€€€€€"`. -/
def docEuros : Value := .string seventeenEuros

/-- A decoder that agrees with `json.Unmarshal` on the sample texts of this file: it decodes
them to the documents above, reports the malformed text `{not valid` with the decoder error,
and reports every other text as unknown to it. -/
def sampleUnmarshal (data : GoString) : Except GoString Value :=
  if data = str "[\x7b\"a\":1\x7d,\x7b\"b\":2,\"c\":3\x7d]" then .ok docTwoObjects
  else if data = str "[[1],[2,3]]" then .ok docNestedArrays
  else if data = str "\x7b\"a\": 1, \"b\": [1,2,3]\x7d" then .ok docScenario
  else if data = str "\x7b\"b\": [1,2,3], \"a\": 1\x7d" then .ok docScenarioSwapped
  else if data = str "\x7b\"root\": \x7b\"a\": 1\x7d\x7d" then .ok docRootKey
  else if data = str "\x7b\"count\": 1e19\x7d" then .ok docBigCount
  else if data = str "\"" ++ seventeenEuros ++ str "\"" then .ok docEuros
  else if data = str "\x7bnot valid" then
    .error (str "invalid character 'n' looking for beginning of object key string")
  else .error (str "text outside the samples")

/-- The Field that `analyzeValue` builds for the array `[{"x": null}, {"x": null}]` stored
under the key `c`. -/
def fieldArrayOfObjects : Field :=
  { Name := str "c", Type_ := .TypeArray,
    Children := [{ Name := str "[item]", Type_ := .TypeObject,
                   Children := [{ Name := str "x", Type_ := .TypeNull, Children := [],
                                  Example := .nil, Count := 1 }],
                   Example := .nil, Count := 1 }],
    Example := .nil, Count := 2 }

/-! ### The analysis as a function of the value alone -/

theorem analyzeIndex_eq (v : List (GoString × Value)) (k : GoString) (depth : Nat)
    (schema : Schema) :
    analyzeIndex v k depth schema = analyzeValue k (mapIndex v k) depth schema := by
  induction v with
  | nil => simp [analyzeIndex, mapIndex, analyzeValue]
  | cons e rest ih =>
    obtain ⟨k', x⟩ := e
    by_cases h : k = k'
    · simp [analyzeIndex, mapIndex, h]
    · simp [analyzeIndex, mapIndex, h, ih]

theorem Schema.eq_of_fields {s t : Schema} (h1 : s.Root = t.Root) (h2 : s.TotalKeys = t.TotalKeys)
    (h3 : s.MaxDepth = t.MaxDepth) (h4 : s.ArrayItems = t.ArrayItems) : s = t := by
  cases s; cases t; simp_all

theorem Schema.noteDepth_eq (s : Schema) (d : Nat) :
    s.noteDepth d = { s with MaxDepth := max s.MaxDepth d } := by
  unfold Schema.noteDepth
  split
  · apply Schema.eq_of_fields <;> simp; omega
  · apply Schema.eq_of_fields <;> simp; omega

theorem Schema.noteDepth_absorb (s : Schema) (d : Nat) :
    s.noteDepth d = s.absorb d (Schema.fresh.noteDepth 0) := by
  rw [Schema.noteDepth_eq, Schema.noteDepth_eq]
  apply Schema.eq_of_fields <;> simp [Schema.absorb, Schema.fresh]

theorem Schema.absorb_absorb (s : Schema) (d : Nat) (z t : Schema) :
    (s.absorb d z).absorb (d + 1) t = s.absorb d (z.absorb 1 t) := by
  apply Schema.eq_of_fields <;> simp [Schema.absorb] <;> omega

/-- The loop over the keys, for an analysis that acts on the schema through `absorb`. -/
theorem foldl_appendChild (f : GoString → Nat → Schema → Field × Schema)
    (hf : ∀ k d s, f k d s = ((f k 0 Schema.fresh).1, s.absorb d (f k 0 Schema.fresh).2))
    (d : Nat) (ks : List GoString) (cs : List Field) (s : Schema) :
    ks.foldl (appendChild (fun k s => f k d s)) (cs, s) =
      (cs ++ ks.map (fun k => (f k 0 Schema.fresh).1),
        ks.foldl (fun s k => s.absorb d (f k 0 Schema.fresh).2) s) := by
  induction ks generalizing cs s with
  | nil => simp
  | cons k ks ih =>
    simp only [List.foldl_cons, List.map_cons]
    rw [appendChild, ih]
    simp only [List.append_assoc, List.singleton_append]
    rw [hf k d s]

theorem foldl_absorb_shift (t : GoString → Schema) (s : Schema) (d : Nat) (ks : List GoString)
    (z : Schema) :
    ks.foldl (fun s k => s.absorb (d + 1) (t k)) (s.absorb d z) =
      s.absorb d (ks.foldl (fun s k => s.absorb 1 (t k)) z) := by
  induction ks generalizing z with
  | nil => simp
  | cons k ks ih =>
    simp only [List.foldl_cons]
    rw [Schema.absorb_absorb, ih]

theorem Schema.absorb_fresh_addTotalKeys (s : Schema) (d n : Nat) :
    (s.noteDepth d).addTotalKeys n = s.absorb d ((Schema.fresh.noteDepth 0).addTotalKeys n) := by
  rw [Schema.noteDepth_eq, Schema.noteDepth_eq]
  apply Schema.eq_of_fields <;> simp [Schema.absorb, Schema.fresh, Schema.addTotalKeys]

theorem Schema.absorb_fresh_addArrayItems (s : Schema) (d n : Nat) :
    (s.noteDepth d).addArrayItems n =
      s.absorb d ((Schema.fresh.noteDepth 0).addArrayItems n) := by
  rw [Schema.noteDepth_eq, Schema.noteDepth_eq]
  apply Schema.eq_of_fields <;> simp [Schema.absorb, Schema.fresh, Schema.addArrayItems]

mutual
/-- The field built by `analyzeValue` does not depend on the depth or on the schema it is
given, and the schema it returns is the given one with the counts of the walk added. -/
theorem analyzeValue_absorb : ∀ (value : Value) (name : GoString) (depth : Nat) (schema : Schema),
    analyzeValue name value depth schema =
      ((run name value).1, schema.absorb depth (run name value).2)
  | .null, name, depth, schema => by
    simp [run, analyzeValue, ← Schema.noteDepth_absorb]
  | .bool _, name, depth, schema => by
    simp [run, analyzeValue, ← Schema.noteDepth_absorb]
  | .number _, name, depth, schema => by
    simp [run, analyzeValue, ← Schema.noteDepth_absorb]
  | .string v, name, depth, schema => by
    by_cases h : v.length > 50 <;> simp [run, analyzeValue, h, ← Schema.noteDepth_absorb]
  | .other, name, depth, schema => by
    simp [run, analyzeValue, ← Schema.noteDepth_absorb]
  | .array [], name, depth, schema => by
    simp [run, analyzeValue, ← Schema.absorb_fresh_addArrayItems]
  | .array (v0 :: rest), name, depth, schema => by
    have ih := analyzeValue_absorb v0
    simp only [run, analyzeValue]
    rw [ih (str "[item]") (depth + 1), ih (str "[item]") (0 + 1)]
    simp only [Schema.absorb_fresh_addArrayItems schema, Schema.absorb_absorb]
  | .object v, name, depth, schema => by
    have ih := analyzeIndex_absorb v
    simp only [run, analyzeValue]
    rw [foldl_appendChild (fun k d s => analyzeIndex v k d s) (fun k d s => ih k d s),
      foldl_appendChild (fun k d s => analyzeIndex v k d s) (fun k d s => ih k d s)]
    simp only [Schema.absorb_fresh_addTotalKeys schema, foldl_absorb_shift]
theorem analyzeIndex_absorb : ∀ (v : List (GoString × Value)) (k : GoString) (depth : Nat)
    (schema : Schema),
    analyzeIndex v k depth schema =
      ((analyzeIndex v k 0 Schema.fresh).1,
        schema.absorb depth (analyzeIndex v k 0 Schema.fresh).2)
  | [], k, depth, schema => by
    simp [analyzeIndex, ← Schema.noteDepth_absorb]
  | (k', x) :: rest, k, depth, schema => by
    by_cases h : k = k'
    · simp only [analyzeIndex, h, if_true]
      exact analyzeValue_absorb x k' depth schema
    · simp only [analyzeIndex, h, if_false]
      exact analyzeIndex_absorb rest k depth schema
end

theorem run_fst_name : ∀ (value : Value) (name : GoString), (run name value).1.Name = name
  | .null, _ => rfl
  | .bool _, _ => rfl
  | .number _, _ => rfl
  | .string v, _ => by by_cases h : v.length > 50 <;> simp [run, analyzeValue, h]
  | .other, _ => rfl
  | .array [], _ => rfl
  | .array (_ :: _), _ => rfl
  | .object _, _ => rfl

/-- The analysis of an object, from a fresh schema. -/
theorem run_object (name : GoString) (v : List (GoString × Value)) :
    run name (.object v) =
      ({ Name := name, Type_ := .TypeObject,
         Children := (sortStrings (mapKeys v)).map (fun k => (run k (mapIndex v k)).1),
         Example := .nil, Count := 1 },
       (sortStrings (mapKeys v)).foldl (fun s k => s.absorb 1 (run k (mapIndex v k)).2)
         (Schema.fresh.addTotalKeys v.length)) := by
  simp only [run, analyzeValue]
  rw [foldl_appendChild (fun k d s => analyzeIndex v k d s)
    (fun k d s => analyzeIndex_absorb v k d s)]
  simp only [analyzeIndex_eq, List.nil_append]
  rfl

/-- The analysis of a non-empty array, from a fresh schema. -/
theorem run_array_cons (name : GoString) (v0 : Value) (rest : List Value) :
    run name (.array (v0 :: rest)) =
      ({ Name := name, Type_ := .TypeArray, Children := [(run (str "[item]") v0).1],
         Example := .nil, Count := (v0 :: rest).length },
       (Schema.fresh.addArrayItems (v0 :: rest).length).absorb 1 (run (str "[item]") v0).2) := by
  simp only [run, analyzeValue]
  rw [analyzeValue_absorb v0 (str "[item]") (0 + 1)]
  rfl

theorem foldl_absorb_totalKeys (t : GoString → Schema) (d : Nat) (ks : List GoString)
    (z : Schema) :
    (ks.foldl (fun s k => s.absorb d (t k)) z).TotalKeys =
      z.TotalKeys + (ks.map (fun k => (t k).TotalKeys)).sum := by
  induction ks generalizing z with
  | nil => simp
  | cons k ks ih =>
    simp only [List.foldl_cons, List.map_cons, List.sum_cons]
    rw [ih]
    simp only [Schema.absorb]
    omega

theorem foldl_absorb_arrayItems (t : GoString → Schema) (d : Nat) (ks : List GoString)
    (z : Schema) :
    (ks.foldl (fun s k => s.absorb d (t k)) z).ArrayItems =
      z.ArrayItems + (ks.map (fun k => (t k).ArrayItems)).sum := by
  induction ks generalizing z with
  | nil => simp
  | cons k ks ih =>
    simp only [List.foldl_cons, List.map_cons, List.sum_cons]
    rw [ih]
    simp only [Schema.absorb]
    omega

theorem foldl_absorb_maxDepth_ge (t : GoString → Schema) (d : Nat) (ks : List GoString)
    (z : Schema) :
    z.MaxDepth ≤ (ks.foldl (fun s k => s.absorb d (t k)) z).MaxDepth ∧
      ∀ k ∈ ks, d + (t k).MaxDepth ≤ (ks.foldl (fun s k => s.absorb d (t k)) z).MaxDepth := by
  induction ks generalizing z with
  | nil => simp
  | cons k ks ih =>
    simp only [List.foldl_cons, List.mem_cons, forall_eq_or_imp]
    have h := ih (z.absorb d (t k))
    have hz : (z.absorb d (t k)).MaxDepth = max z.MaxDepth (d + (t k).MaxDepth) := rfl
    refine ⟨by omega, by omega, h.2⟩

theorem foldl_absorb_maxDepth_mem (t : GoString → Schema) (d : Nat) (ks : List GoString)
    (z : Schema) :
    (ks.foldl (fun s k => s.absorb d (t k)) z).MaxDepth = z.MaxDepth ∨
      ∃ k ∈ ks, (ks.foldl (fun s k => s.absorb d (t k)) z).MaxDepth = d + (t k).MaxDepth := by
  induction ks generalizing z with
  | nil => simp
  | cons k ks ih =>
    simp only [List.foldl_cons, List.mem_cons, exists_eq_or_imp]
    have hz : (z.absorb d (t k)).MaxDepth = max z.MaxDepth (d + (t k).MaxDepth) := rfl
    rcases ih (z.absorb d (t k)) with h | ⟨k', hk', h⟩
    · rw [h, hz]
      rcases Nat.le_total z.MaxDepth (d + (t k).MaxDepth) with h' | h'
      · right; left; omega
      · left; omega
    · right; right; exact ⟨k', hk', h⟩

/-! ### Sums over the keys of a map -/

theorem mapIndex_cons_self (k : GoString) (x : Value) (rest : List (GoString × Value)) :
    mapIndex ((k, x) :: rest) k = x := by
  simp [mapIndex]

theorem mapIndex_cons_ne {k k' : GoString} (h : k ≠ k') (x : Value)
    (rest : List (GoString × Value)) : mapIndex ((k', x) :: rest) k = mapIndex rest k := by
  simp [mapIndex, h]

theorem map_mapIndex_keys {β : Type} (g : GoString → Value → β) :
    ∀ (v : List (GoString × Value)), (mapKeys v).Nodup →
      (mapKeys v).map (fun k => g k (mapIndex v k)) = v.map (fun e => g e.1 e.2)
  | [], _ => rfl
  | (k, x) :: rest, hnd => by
    have hnd' : k ∉ mapKeys rest ∧ (mapKeys rest).Nodup := by
      simpa [mapKeys] using hnd
    have ih := map_mapIndex_keys g rest hnd'.2
    simp only [mapKeys, List.map_cons, mapIndex_cons_self, List.cons.injEq, true_and]
    rw [← ih]
    apply List.map_congr_left
    intro k' hk'
    have hne : k' ≠ k := by
      rintro rfl
      exact hnd'.1 hk'
    rw [mapIndex_cons_ne hne]

theorem sortStrings_perm (keys : List GoString) : (sortStrings keys).Perm keys :=
  List.perm_insertionSort _ keys

theorem sampledObjectKeysOfEntries_eq : ∀ (es : List (GoString × Value)),
    sampledObjectKeysOfEntries es = (es.map (fun e => e.2.sampledObjectKeys)).sum
  | [] => rfl
  | (_, v) :: es => by
    simp [sampledObjectKeysOfEntries, sampledObjectKeysOfEntries_eq es]

theorem sampledArrayLengthsOfEntries_eq : ∀ (es : List (GoString × Value)),
    sampledArrayLengthsOfEntries es = (es.map (fun e => e.2.sampledArrayLengths)).sum
  | [] => rfl
  | (_, v) :: es => by
    simp [sampledArrayLengthsOfEntries, sampledArrayLengthsOfEntries_eq es]

theorem mem_mapIndex : ∀ (v : List (GoString × Value)) (k : GoString),
    k ∈ mapKeys v → (k, mapIndex v k) ∈ v
  | [], k, h => by simp [mapKeys] at h
  | (k', x) :: rest, k, h => by
    by_cases hk : k = k'
    · subst hk
      simp [mapIndex]
    · have h' : k ∈ mapKeys rest := by
        simpa [mapKeys, hk] using h
      rw [mapIndex_cons_ne hk]
      exact List.mem_cons_of_mem _ (mem_mapIndex rest k h')

theorem distinctKeys_of_mem : ∀ (es : List (GoString × Value)),
    distinctKeysOfEntries es = true → ∀ e ∈ es, e.2.distinctKeys = true
  | [], _, e, he => by simp at he
  | (k, x) :: rest, h, e, he => by
    simp only [distinctKeysOfEntries, Bool.and_eq_true] at h
    rcases List.mem_cons.1 he with rfl | he'
    · exact h.1
    · exact distinctKeys_of_mem rest h.2 e he'

/-- The counters of the walk of a value with distinct keys are the sampled sums. -/
theorem run_counts : ∀ (value : Value) (name : GoString), value.distinctKeys = true →
    (run name value).2.TotalKeys = value.sampledObjectKeys ∧
      (run name value).2.ArrayItems = value.sampledArrayLengths
  | .null, _, _ => ⟨rfl, rfl⟩
  | .bool _, _, _ => ⟨rfl, rfl⟩
  | .number _, _, _ => ⟨rfl, rfl⟩
  | .string v, _, _ => by
    by_cases h : v.length > 50 <;>
      simp [run, analyzeValue, h, Value.sampledObjectKeys, Value.sampledArrayLengths,
        Schema.noteDepth, Schema.fresh]
  | .other, _, _ => ⟨rfl, rfl⟩
  | .array [], _, _ => ⟨rfl, rfl⟩
  | .array (v0 :: rest), name, h => by
    have h0 : v0.distinctKeys = true := by
      simp only [Value.distinctKeys, distinctKeysOfItems, Bool.and_eq_true] at h
      exact h.1
    have ih := run_counts v0 (str "[item]") h0
    rw [run_array_cons]
    simp only [Schema.absorb, Schema.addArrayItems, Schema.fresh, Value.sampledObjectKeys,
      Value.sampledArrayLengths, ih.1, ih.2]
    omega
  | .object v, name, h => by
    simp only [Value.distinctKeys, Bool.and_eq_true, decide_eq_true_eq] at h
    have ih : ∀ e ∈ v, (run e.1 e.2).2.TotalKeys = e.2.sampledObjectKeys ∧
        (run e.1 e.2).2.ArrayItems = e.2.sampledArrayLengths := by
      intro e he
      exact run_counts e.2 e.1 (distinctKeys_of_mem v h.2 e he)
    rw [run_object]
    simp only [foldl_absorb_totalKeys, foldl_absorb_arrayItems]
    rw [((sortStrings_perm (mapKeys v)).map _).sum_eq,
      ((sortStrings_perm (mapKeys v)).map _).sum_eq,
      map_mapIndex_keys (fun k x => (run k x).2.TotalKeys) v h.1,
      map_mapIndex_keys (fun k x => (run k x).2.ArrayItems) v h.1]
    rw [List.map_congr_left (fun e he => (ih e he).1),
      List.map_congr_left (fun e he => (ih e he).2)]
    simp only [Value.sampledObjectKeys, Value.sampledArrayLengths,
      sampledObjectKeysOfEntries_eq, sampledArrayLengthsOfEntries_eq, Schema.addTotalKeys,
      Schema.fresh]
    omega
termination_by value => sizeOf value
decreasing_by
  all_goals simp_wf
  · omega
  · have := List.sizeOf_lt_of_mem he
    obtain ⟨k, x⟩ := e
    simp at this ⊢
    omega

/-! ### C3: the depth -/

theorem sizeOf_mapIndex_lt : ∀ (v : List (GoString × Value)) (k : GoString),
    sizeOf (mapIndex v k) < sizeOf (Value.object v)
  | [], k => by simp [mapIndex]
  | (k', x) :: rest, k => by
    have ih := sizeOf_mapIndex_lt rest k
    by_cases h : k = k'
    · subst h
      rw [mapIndex_cons_self]
      simp
      omega
    · rw [mapIndex_cons_ne h]
      simp at ih ⊢
      omega

theorem mem_nodeDepthsOfChildren : ∀ (cs : List Field) (d x : Nat),
    x ∈ nodeDepthsOfChildren cs d ↔ ∃ c ∈ cs, x ∈ c.nodeDepths d
  | [], d, x => by simp [nodeDepthsOfChildren]
  | c :: cs, d, x => by
    simp [nodeDepthsOfChildren, mem_nodeDepthsOfChildren cs d x]

theorem nodeDepths_leaf (name : GoString) (t : FieldType) (e : Any) (c d : Nat) :
    Field.nodeDepths { Name := name, Type_ := t, Children := [], Example := e, Count := c } d
      = [d] := by
  simp [Field.nodeDepths, nodeDepthsOfChildren]

/-- The depth reached by the walk of a value is the depth of a node of the field tree it
builds, and no node of that tree is deeper. -/
theorem run_maxDepth : ∀ (value : Value) (name : GoString) (base : Nat),
    base + (run name value).2.MaxDepth ∈ (run name value).1.nodeDepths base ∧
      ∀ x ∈ (run name value).1.nodeDepths base, x ≤ base + (run name value).2.MaxDepth
  | .null, _, _ => by simp [run, analyzeValue, nodeDepths_leaf, Schema.noteDepth, Schema.fresh]
  | .bool _, _, _ => by simp [run, analyzeValue, nodeDepths_leaf, Schema.noteDepth, Schema.fresh]
  | .number _, _, _ => by
    simp [run, analyzeValue, nodeDepths_leaf, Schema.noteDepth, Schema.fresh]
  | .string v, _, _ => by
    by_cases h : v.length > 50 <;>
      simp [run, analyzeValue, h, nodeDepths_leaf, Schema.noteDepth, Schema.fresh]
  | .other, _, _ => by simp [run, analyzeValue, nodeDepths_leaf, Schema.noteDepth, Schema.fresh]
  | .array [], _, _ => by
    simp [run, analyzeValue, nodeDepths_leaf, Schema.noteDepth, Schema.fresh,
      Schema.addArrayItems]
  | .array (v0 :: rest), name, base => by
    have ih := run_maxDepth v0 (str "[item]") (base + 1)
    rw [run_array_cons]
    simp only [Field.nodeDepths, nodeDepthsOfChildren, List.append_nil, Schema.absorb,
      Schema.addArrayItems, Schema.fresh, List.mem_cons]
    have hm : max 0 (1 + (run (str "[item]") v0).2.MaxDepth)
        = 1 + (run (str "[item]") v0).2.MaxDepth := by omega
    rw [hm]
    constructor
    · right
      have := ih.1
      rwa [Nat.add_assoc] at this
    · rintro x (rfl | hx)
      · omega
      · have := ih.2 x hx
        omega
  | .object v, name, base => by
    have ih : ∀ k, _ := fun k => run_maxDepth (mapIndex v k) k (base + 1)
    rw [run_object]
    simp only [Field.nodeDepths, List.mem_cons, mem_nodeDepthsOfChildren, List.mem_map]
    have hge := foldl_absorb_maxDepth_ge (fun k => (run k (mapIndex v k)).2) 1
      (sortStrings (mapKeys v)) (Schema.fresh.addTotalKeys v.length)
    have hmem := foldl_absorb_maxDepth_mem (fun k => (run k (mapIndex v k)).2) 1
      (sortStrings (mapKeys v)) (Schema.fresh.addTotalKeys v.length)
    constructor
    · rcases hmem with h | ⟨k, hk, h⟩
      · left
        rw [h]
        simp [Schema.addTotalKeys, Schema.fresh]
      · right
        refine ⟨_, ⟨k, hk, rfl⟩, ?_⟩
        rw [h]
        have := (ih k).1
        rwa [Nat.add_assoc] at this
    · rintro x (rfl | ⟨c, ⟨k, hk, rfl⟩, hx⟩)
      · omega
      · have h1 := (ih k).2 x hx
        have h2 := hge.2 k hk
        simp only at h2
        omega
termination_by value => sizeOf value
decreasing_by
  all_goals simp_wf
  · omega
  · have := sizeOf_mapIndex_lt v k
    simpa using this

/-! ### Rendering: the builder only grows -/

mutual
/-- The method `format` appends to the builder: what it writes does not depend on what the
builder holds. -/
theorem Field.format_append (quote : GoString → GoString) (outOfRange : ℚ → Int) :
    ∀ (f : Field) (sb : GoString) (indent : Nat),
      f.format quote outOfRange sb indent = sb ++ f.format quote outOfRange [] indent
  | ⟨name, .TypeObject, children, _, _⟩, sb, indent => by
    have ih := formatEach_append quote outOfRange children
    by_cases h : name = str "root"
    · simp only [Field.format, h, if_true]
      rw [ih (sb ++ _), ih ([] ++ _)]
      simp only [List.append_assoc, List.nil_append]
    · simp only [Field.format, h, if_false]
      rw [ih (sb ++ _), ih ([] ++ _)]
      simp only [List.append_assoc, List.nil_append]
  | ⟨name, .TypeArray, [], _, _⟩, sb, indent => by
    simp only [Field.format, List.nil_append]
  | ⟨name, .TypeArray, ⟨_, .TypeObject, grandchildren, _, _⟩ :: _, _, _⟩, sb, indent => by
    have ih := formatEach_append quote outOfRange grandchildren
    simp only [Field.format]
    rw [ih (sb ++ _ ++ _), ih ([] ++ _ ++ _)]
    simp only [List.append_assoc, List.nil_append]
  | ⟨name, .TypeArray, ⟨_, .TypeString, _, _, _⟩ :: _, _, _⟩, sb, indent => by
    simp only [Field.format, List.nil_append]
  | ⟨name, .TypeArray, ⟨_, .TypeNumber, _, _, _⟩ :: _, _, _⟩, sb, indent => by
    simp only [Field.format, List.nil_append]
  | ⟨name, .TypeArray, ⟨_, .TypeBool, _, _, _⟩ :: _, _, _⟩, sb, indent => by
    simp only [Field.format, List.nil_append]
  | ⟨name, .TypeArray, ⟨_, .TypeNull, _, _, _⟩ :: _, _, _⟩, sb, indent => by
    simp only [Field.format, List.nil_append]
  | ⟨name, .TypeArray, ⟨_, .TypeArray, _, _, _⟩ :: _, _, _⟩, sb, indent => by
    simp only [Field.format, List.nil_append]
  | ⟨name, .TypeArray, ⟨_, .TypeUnknown, _, _, _⟩ :: _, _, _⟩, sb, indent => by
    simp only [Field.format, List.nil_append]
  | ⟨name, .TypeString, _, _, _⟩, sb, indent => by
    simp only [Field.format, List.nil_append]
  | ⟨name, .TypeNumber, _, _, _⟩, sb, indent => by
    simp only [Field.format, List.nil_append]
  | ⟨name, .TypeBool, _, _, _⟩, sb, indent => by
    simp only [Field.format, List.nil_append]
  | ⟨name, .TypeNull, _, _, _⟩, sb, indent => by
    simp only [Field.format, List.nil_append]
  | ⟨name, .TypeUnknown, _, _, _⟩, sb, indent => by
    simp only [Field.format, List.nil_append]
/-- The loop over the children appends to the builder. -/
theorem formatEach_append (quote : GoString → GoString) (outOfRange : ℚ → Int) :
    ∀ (children : List Field) (sb : GoString) (indent : Nat),
      formatEach quote outOfRange children sb indent
        = sb ++ formatEach quote outOfRange children [] indent
  | [], sb, indent => by simp [formatEach]
  | child :: rest, sb, indent => by
    have ih1 := Field.format_append quote outOfRange child
    have ih2 := formatEach_append quote outOfRange rest
    simp only [formatEach]
    rw [ih2 (child.format quote outOfRange sb indent),
      ih2 (child.format quote outOfRange [] indent), ih1 sb]
    simp only [List.append_assoc]
end

/-! ### Rendering of objects and of numbers, case by case -/

/-- An object Field whose name is not `root` is written as the line `{indent}{name}: {`, its
children one level deeper, and the line `{indent}}`. -/
theorem Field.format_object_of_ne_root (quote : GoString → GoString) (outOfRange : ℚ → Int)
    (name : GoString) (children : List Field) (ex : Any) (count : Nat) (sb : GoString)
    (d : Nat) (hname : name ≠ str "root") :
    Field.format quote outOfRange
        { Name := name, Type_ := .TypeObject, Children := children, Example := ex,
          Count := count } sb d =
      sb ++ (Repeat (str "  ") d ++ name ++ str ": \x7b\n")
        ++ formatEach quote outOfRange children [] (d + 1)
        ++ (Repeat (str "  ") d ++ str "\x7d\n") := by
  simp only [Field.format, hname, if_false]
  rw [formatEach_append]

/-- An object Field whose name is `root` is written as the line `{`, its children one level
deeper, and `}` without indent or newline. -/
theorem Field.format_object_of_root (quote : GoString → GoString) (outOfRange : ℚ → Int)
    (children : List Field) (ex : Any) (count : Nat) (sb : GoString) (d : Nat) :
    Field.format quote outOfRange
        { Name := str "root", Type_ := .TypeObject, Children := children, Example := ex,
          Count := count } sb d =
      sb ++ str "\x7b\n" ++ formatEach quote outOfRange children [] (d + 1) ++ str "\x7d" := by
  simp only [Field.format, if_true]
  rw [formatEach_append]

theorem float64OfInt_den (i : Int) : (float64OfInt i).den = 1 := by
  unfold float64OfInt
  split <;> exact Rat.den_intCast _

/-- A number that is not integral is annotated with its value to two decimals. -/
theorem exampleText_of_fractional (quote : GoString → GoString) (outOfRange : ℚ → Int)
    (e : ℚ) (h : e.den ≠ 1) :
    exampleText quote outOfRange (.float64 e) = str " // e.g. " ++ fmtFixed2 e := by
  have hne : e ≠ float64OfInt (intOfFloat64 outOfRange e) := by
    intro heq
    apply h
    rw [heq]
    exact float64OfInt_den _
  simp only [exampleText, if_neg hne]

/-- An integral number that fits an `int` and is a float64 is annotated with its value as a
decimal integer. -/
theorem exampleText_of_integral (quote : GoString → GoString) (outOfRange : ℚ → Int)
    (i : Int) (hlo : -(2 ^ 63) ≤ i) (hhi : i < 2 ^ 63) (hfloat : float64OfInt i = (i : ℚ)) :
    exampleText quote outOfRange (.float64 (i : ℚ)) = str " // e.g. " ++ fmtInt i := by
  have hint : intOfFloat64 outOfRange (i : ℚ) = i := by
    unfold intOfFloat64
    simp only [Rat.num_intCast, Rat.den_intCast, Nat.cast_one, Int.tdiv_one]
    rw [if_pos ⟨hlo, hhi⟩]
  simp only [exampleText, hint, hfloat, if_true]

/-- The Example of a string value: the string when it has at most 50 bytes, and otherwise its
first 50 bytes followed by `...`. -/
theorem analyzeValue_string_example (name v : GoString) (depth : Nat) (schema : Schema) :
    (analyzeValue name (.string v) depth schema).1.Example =
      if v.length ≤ 50 then .string v else .string (v.take 50 ++ str "...") := by
  by_cases h : v.length > 50
  · simp [analyzeValue, h, Nat.not_le.2 h]
  · simp [analyzeValue, h, Nat.not_lt.1 h]

/-! ### C1, C2: the counters -/

theorem AnalyzeJSON_ok {ε : Type} (unmarshal : GoString → Except ε Value) (data : GoString)
    (doc : Value) (hdec : unmarshal data = .ok doc) :
    AnalyzeJSON unmarshal data =
      (some { (run (str "root") doc).2 with Root := some (run (str "root") doc).1 }, none) := by
  simp [AnalyzeJSON, hdec, run, Schema.fresh]

/-- C1, as stated, fails: for the document `[{"a":1},{"b":2,"c":3}]` the keys of all object
nodes sum to 3, and `AnalyzeJSON` returns a Schema with `TotalKeys = 1`. -/
theorem totalKeys_all_objects_counterexample :
    sampleUnmarshal (str "[\x7b\"a\":1\x7d,\x7b\"b\":2,\"c\":3\x7d]") = .ok docTwoObjects ∧
      docTwoObjects.objectKeys = 3 ∧
      ((AnalyzeJSON sampleUnmarshal (str "[\x7b\"a\":1\x7d,\x7b\"b\":2,\"c\":3\x7d]")).1.map
        Schema.TotalKeys) = some 1 := by
  refine ⟨rfl, by decide, by decide⟩

/-- C1, amended: for every successfully decoded JSON document, the `TotalKeys` of the Schema
returned by `AnalyzeJSON` equals the sum of the numbers of keys of the object nodes that are
reached from the root through values of objects and first elements of arrays. -/
theorem totalKeys_eq_sampledObjectKeys {ε : Type} (unmarshal : GoString → Except ε Value)
    (data : GoString) (doc : Value) (hdec : unmarshal data = .ok doc)
    (hkeys : doc.distinctKeys = true) :
    ∃ s, AnalyzeJSON unmarshal data = (some s, none) ∧
      s.TotalKeys = doc.sampledObjectKeys := by
  refine ⟨_, AnalyzeJSON_ok unmarshal data doc hdec, ?_⟩
  exact (run_counts doc (str "root") hkeys).1

theorem totalKeys_eq_sampledObjectKeys_witness :
    sampleUnmarshal (str "\x7b\"a\": 1, \"b\": [1,2,3]\x7d") = .ok docScenario ∧
      docScenario.distinctKeys = true ∧ docScenario.sampledObjectKeys = 2 ∧
      ∃ s, AnalyzeJSON sampleUnmarshal (str "\x7b\"a\": 1, \"b\": [1,2,3]\x7d")
          = (some s, none) ∧
        s.TotalKeys = docScenario.sampledObjectKeys :=
  ⟨rfl, by decide, by decide,
    totalKeys_eq_sampledObjectKeys sampleUnmarshal (str "\x7b\"a\": 1, \"b\": [1,2,3]\x7d")
      docScenario rfl (by decide)⟩

/-- C2, as stated, fails: for the document `[[1],[2,3]]` the lengths of all array nodes sum
to 5, and `AnalyzeJSON` returns a Schema with `ArrayItems = 3`. -/
theorem arrayItems_all_arrays_counterexample :
    sampleUnmarshal (str "[[1],[2,3]]") = .ok docNestedArrays ∧
      docNestedArrays.arrayLengths = 5 ∧
      ((AnalyzeJSON sampleUnmarshal (str "[[1],[2,3]]")).1.map Schema.ArrayItems) = some 3 := by
  refine ⟨rfl, by decide, by decide⟩

/-- C2, amended: for every successfully decoded JSON document, the `ArrayItems` of the Schema
returned by `AnalyzeJSON` equals the sum of the lengths of the array nodes that are reached
from the root through values of objects and first elements of arrays. -/
theorem arrayItems_eq_sampledArrayLengths {ε : Type} (unmarshal : GoString → Except ε Value)
    (data : GoString) (doc : Value) (hdec : unmarshal data = .ok doc)
    (hkeys : doc.distinctKeys = true) :
    ∃ s, AnalyzeJSON unmarshal data = (some s, none) ∧
      s.ArrayItems = doc.sampledArrayLengths := by
  refine ⟨_, AnalyzeJSON_ok unmarshal data doc hdec, ?_⟩
  exact (run_counts doc (str "root") hkeys).2

theorem arrayItems_eq_sampledArrayLengths_witness :
    sampleUnmarshal (str "\x7b\"a\": 1, \"b\": [1,2,3]\x7d") = .ok docScenario ∧
      docScenario.distinctKeys = true ∧ docScenario.sampledArrayLengths = 3 ∧
      ∃ s, AnalyzeJSON sampleUnmarshal (str "\x7b\"a\": 1, \"b\": [1,2,3]\x7d")
          = (some s, none) ∧
        s.ArrayItems = docScenario.sampledArrayLengths :=
  ⟨rfl, by decide, by decide,
    arrayItems_eq_sampledArrayLengths sampleUnmarshal
      (str "\x7b\"a\": 1, \"b\": [1,2,3]\x7d") docScenario rfl (by decide)⟩

/-! ### C3 -/

/-- C3: for every successfully decoded JSON document, the `MaxDepth` of the Schema returned by
`AnalyzeJSON` is the greatest depth of a Field node of the returned tree (it is the depth of
one of the nodes, and no node is deeper), the root Field being at depth 0 and each child one
deeper than its parent; it is 0 for a scalar, null, empty-object or empty-array document. -/
theorem maxDepth_eq_greatest_node_depth {ε : Type} (unmarshal : GoString → Except ε Value)
    (data : GoString) (doc : Value) (hdec : unmarshal data = .ok doc) :
    ∃ s root, AnalyzeJSON unmarshal data = (some s, none) ∧ s.Root = some root ∧
      s.MaxDepth ∈ root.nodeDepths 0 ∧ (∀ x ∈ root.nodeDepths 0, x ≤ s.MaxDepth) ∧
      (doc.hasNoChild = true → s.MaxDepth = 0) := by
  refine ⟨_, _, AnalyzeJSON_ok unmarshal data doc hdec, rfl, ?_, ?_, ?_⟩
  · have h := (run_maxDepth doc (str "root") 0).1
    simpa using h
  · intro x hx
    have h := (run_maxDepth doc (str "root") 0).2 x hx
    simpa using h
  · intro hflat
    show (run (str "root") doc).2.MaxDepth = 0
    cases doc with
    | null => rfl
    | bool _ => rfl
    | number _ => rfl
    | string v =>
      by_cases h : v.length > 50 <;> simp [run, analyzeValue, h, Schema.noteDepth, Schema.fresh]
    | other => rfl
    | array items =>
      cases items with
      | nil => rfl
      | cons _ _ => simp [Value.hasNoChild] at hflat
    | object entries =>
      cases entries with
      | nil => rfl
      | cons _ _ => simp [Value.hasNoChild] at hflat

theorem maxDepth_eq_greatest_node_depth_witness :
    sampleUnmarshal (str "\x7b\"a\": 1, \"b\": [1,2,3]\x7d") = .ok docScenario ∧
      (AnalyzeJSON sampleUnmarshal (str "\x7b\"a\": 1, \"b\": [1,2,3]\x7d")).1.map
        Schema.MaxDepth = some 2 ∧
      ∃ s root, AnalyzeJSON sampleUnmarshal (str "\x7b\"a\": 1, \"b\": [1,2,3]\x7d")
          = (some s, none) ∧ s.Root = some root ∧
        s.MaxDepth ∈ root.nodeDepths 0 ∧ (∀ x ∈ root.nodeDepths 0, x ≤ s.MaxDepth) ∧
        (docScenario.hasNoChild = true → s.MaxDepth = 0) :=
  ⟨rfl, by decide, maxDepth_eq_greatest_node_depth sampleUnmarshal
    (str "\x7b\"a\": 1, \"b\": [1,2,3]\x7d") docScenario rfl⟩

/-! ### C5 -/

/-- C5: `AnalyzeJSON` returns an error exactly when the decoder rejects the input: then the
error is the decoder's error and the Schema is nil; when the decoder accepts, whatever the
decoded value, the error is nil and the Schema has a non-nil `Root`. -/
theorem AnalyzeJSON_error_iff_decoder_rejects {ε : Type}
    (unmarshal : GoString → Except ε Value) (data : GoString) :
    ((AnalyzeJSON unmarshal data).2.isSome = true ↔ ∃ err, unmarshal data = .error err) ∧
      match unmarshal data with
      | .error err => AnalyzeJSON unmarshal data = (none, some err)
      | .ok _ =>
        ∃ s root, AnalyzeJSON unmarshal data = (some s, none) ∧ s.Root = some root := by
  cases h : unmarshal data with
  | error err => simp [AnalyzeJSON, h]
  | ok doc =>
    refine ⟨?_, _, _, AnalyzeJSON_ok unmarshal data doc h, rfl⟩
    simp [AnalyzeJSON_ok unmarshal data doc h, h]

/-! ### C4: the children of an object -/

theorem sortStrings_sorted (keys : List GoString) :
    List.Sorted (fun a b => a ≤ b) (sortStrings keys) :=
  List.sorted_insertionSort _ keys

theorem sortStrings_eq_of_perm {ks ks' : List GoString} (h : ks.Perm ks') :
    sortStrings ks = sortStrings ks' :=
  List.eq_of_perm_of_sorted
    (((sortStrings_perm ks).trans h).trans (sortStrings_perm ks').symm)
    (sortStrings_sorted ks) (sortStrings_sorted ks')

theorem mem_sortStrings {k : GoString} {keys : List GoString} :
    k ∈ sortStrings keys ↔ k ∈ keys :=
  (sortStrings_perm keys).mem_iff

/-- Documents that differ only in the order of object keys are analysed alike. -/
theorem analyzeValue_sameUpToKeyOrder {v w : Value} (h : SameUpToKeyOrder v w) :
    (∀ name depth schema, analyzeValue name v depth schema = analyzeValue name w depth schema) ∧
      (∀ xs ys, v = .array xs → w = .array ys → xs.length = ys.length) := by
  induction h with
  | refl v =>
    refine ⟨fun _ _ _ => rfl, ?_⟩
    intro xs ys h1 h2
    rw [h1] at h2
    cases h2
    rfl
  | @array_cons x y xs ys _ _ ih1 ih2 =>
    have hlen : xs.length = ys.length := ih2.2 xs ys rfl rfl
    refine ⟨?_, ?_⟩
    · intro name depth schema
      simp only [analyzeValue, List.length_cons, hlen, ih1.1]
    · intro xs' ys' h1 h2
      cases h1
      cases h2
      simp [hlen]
  | @object es fs hperm _ ih =>
    refine ⟨?_, ?_⟩
    · intro name depth schema
      have hlen : es.length = fs.length := by
        have := hperm.length_eq
        simpa [mapKeys] using this
      have hfold : ∀ (init : List Field × Schema),
          (sortStrings (mapKeys es)).foldl
              (appendChild (fun k s => analyzeIndex es k (depth + 1) s)) init =
            (sortStrings (mapKeys es)).foldl
              (appendChild (fun k s => analyzeIndex fs k (depth + 1) s)) init := by
        intro init
        apply List.foldl_ext
        intro acc k hk
        have hk1 : k ∈ mapKeys es := mem_sortStrings.1 hk
        have hk2 : k ∈ mapKeys fs := hperm.mem_iff.1 hk1
        have := (ih k (mapIndex es k) (mapIndex fs k) (mem_mapIndex es k hk1)
          (mem_mapIndex fs k hk2)).1 k (depth + 1) acc.2
        simp only [appendChild, analyzeIndex_eq, this]
      simp only [analyzeValue, hfold, ← sortStrings_eq_of_perm hperm, hlen]
    · intro xs ys h1
      cases h1

/-- C4: for every object value with distinct keys, in whatever order the key/value pairs are
met, the Field produced by `analyzeValue` has type object, has exactly one child per key (the
names of the children are a rearrangement of the keys), the names are in strictly ascending
lexicographic order, and each child is the analysis of the value stored under its name;
and two documents that differ only in object key order yield the same Schema and the same
`String()` text. -/
theorem object_children_sorted_by_key {ε : Type} (unmarshal : GoString → Except ε Value)
    (quote : GoString → GoString) (outOfRange : ℚ → Int)
    (name : GoString) (v : List (GoString × Value)) (depth : Nat) (schema : Schema)
    (hnd : (mapKeys v).Nodup)
    (data data' : GoString) (doc doc' : Value) (hdec : unmarshal data = .ok doc)
    (hdec' : unmarshal data' = .ok doc') (hsame : SameUpToKeyOrder doc doc') :
    (analyzeValue name (.object v) depth schema).1.Type_ = .TypeObject ∧
      ((analyzeValue name (.object v) depth schema).1.Children.map Field.Name).Perm (mapKeys v) ∧
      List.Sorted (fun a b => a < b)
        ((analyzeValue name (.object v) depth schema).1.Children.map Field.Name) ∧
      (∀ c ∈ (analyzeValue name (.object v) depth schema).1.Children,
        ∃ x, (c.Name, x) ∈ v ∧ ∀ d s, c = (analyzeValue c.Name x d s).1) ∧
      AnalyzeJSON unmarshal data = AnalyzeJSON unmarshal data' ∧
      (AnalyzeJSON unmarshal data).1.map (Schema.String quote outOfRange) =
        (AnalyzeJSON unmarshal data').1.map (Schema.String quote outOfRange) := by
  have hnames : ((analyzeValue name (.object v) depth schema).1.Children.map Field.Name)
      = sortStrings (mapKeys v) := by
    rw [analyzeValue_absorb, run_object]
    simp only [List.map_map]
    conv_rhs => rw [← List.map_id (sortStrings (mapKeys v))]
    apply List.map_congr_left
    intro k _
    simp [run_fst_name]
  have heq : AnalyzeJSON unmarshal data = AnalyzeJSON unmarshal data' := by
    simp only [AnalyzeJSON, hdec, hdec', (analyzeValue_sameUpToKeyOrder hsame).1]
  refine ⟨?_, ?_, ?_, ?_, heq, by rw [heq]⟩
  · rw [analyzeValue_absorb, run_object]
  · rw [hnames]
    exact sortStrings_perm _
  · rw [hnames]
    exact (sortStrings_sorted _).lt_of_le ((sortStrings_perm _).nodup_iff.2 hnd)
  · intro c hc
    rw [analyzeValue_absorb, run_object] at hc
    simp only [List.mem_map] at hc
    obtain ⟨k, hk, rfl⟩ := hc
    rw [run_fst_name]
    refine ⟨mapIndex v k, mem_mapIndex v k (mem_sortStrings.1 hk), ?_⟩
    intro d s
    rw [analyzeValue_absorb]

theorem sameUpToKeyOrder_scenario : SameUpToKeyOrder docScenario docScenarioSwapped := by
  apply SameUpToKeyOrder.object
  · decide
  · intro k x y hx hy
    simp only [List.mem_cons, Prod.mk.injEq, List.mem_singleton, List.not_mem_nil,
      or_false] at hx hy
    rcases hx with ⟨rfl, rfl⟩ | ⟨rfl, rfl⟩ <;> rcases hy with ⟨h, rfl⟩ | ⟨h, rfl⟩ <;>
      first
      | exact SameUpToKeyOrder.refl _
      | exact absurd h (by decide)

theorem object_children_sorted_by_key_witness :
    (mapKeys [(str "b", Value.number 2), (str "a", Value.number 1)]).Nodup ∧
    (analyzeValue (str "root") (.object [(str "b", Value.number 2), (str "a", Value.number 1)])
        0 Schema.fresh).1.Type_ = .TypeObject ∧
      ((analyzeValue (str "root")
        (.object [(str "b", Value.number 2), (str "a", Value.number 1)]) 0
        Schema.fresh).1.Children.map Field.Name).Perm
          (mapKeys [(str "b", Value.number 2), (str "a", Value.number 1)]) ∧
      List.Sorted (fun a b => a < b)
        ((analyzeValue (str "root")
          (.object [(str "b", Value.number 2), (str "a", Value.number 1)]) 0
          Schema.fresh).1.Children.map Field.Name) ∧
      (∀ c ∈ (analyzeValue (str "root")
          (.object [(str "b", Value.number 2), (str "a", Value.number 1)]) 0
          Schema.fresh).1.Children,
        ∃ x, (c.Name, x) ∈ [(str "b", Value.number 2), (str "a", Value.number 1)] ∧
          ∀ d s, c = (analyzeValue c.Name x d s).1) ∧
      AnalyzeJSON sampleUnmarshal (str "\x7b\"a\": 1, \"b\": [1,2,3]\x7d") =
        AnalyzeJSON sampleUnmarshal (str "\x7b\"b\": [1,2,3], \"a\": 1\x7d") ∧
      (AnalyzeJSON sampleUnmarshal (str "\x7b\"a\": 1, \"b\": [1,2,3]\x7d")).1.map
          (Schema.String id (fun _ => 0)) =
        (AnalyzeJSON sampleUnmarshal (str "\x7b\"b\": [1,2,3], \"a\": 1\x7d")).1.map
          (Schema.String id (fun _ => 0)) :=
  ⟨by decide, object_children_sorted_by_key sampleUnmarshal id (fun _ => 0) (str "root")
    [(str "b", Value.number 2), (str "a", Value.number 1)] 0 Schema.fresh (by decide)
    (str "\x7b\"a\": 1, \"b\": [1,2,3]\x7d") (str "\x7b\"b\": [1,2,3], \"a\": 1\x7d")
    docScenario docScenarioSwapped rfl rfl sameUpToKeyOrder_scenario⟩

/-! ### C6 -/

/-- C6: the code contradicts the claim on a string with multi-byte characters. The string of
seventeen `€` has 17 characters (at most 50) and 51 bytes; `analyzeValue` does not keep it as
the Example but cuts it after 50 bytes, in the middle of the last character, and appends
`...`. -/
theorem string_example_cut_by_bytes :
    euroText.length = 17 ∧ seventeenEuros.length = 51 ∧
      (analyzeValue (str "name") (.string seventeenEuros) 1 Schema.fresh).1.Example =
        .string (str "€€€€€€€€€€€€€€€€" ++ [0xE2, 0x82] ++ str "...") ∧
      (analyzeValue (str "name") (.string seventeenEuros) 1 Schema.fresh).1.Example ≠
        .string seventeenEuros := by
  refine ⟨by decide, by decide, by decide, by decide⟩

/-! ### C7 -/

/-- C7, as stated, fails: for the array Field `c` of two items whose representative child is
the object with the child `x`, `format` writes the lines `{` and `}` of the child wrapper
between the opening line and the closing `]`. -/
theorem array_of_objects_no_wrapper_counterexample :
    fieldArrayOfObjects.format id (fun _ => 0) [] 1 =
        str "  c: [ (2 items)\n    \x7b\n      x: null\n    \x7d\n  ]\n" ∧
      fieldArrayOfObjects.format id (fun _ => 0) [] 1 ≠
        str "  c: [ (2 items)\n" ++
          formatEach id (fun _ => 0)
            [{ Name := str "x", Type_ := .TypeNull, Children := [], Example := .nil,
               Count := 1 }] [] 3 ++
          str "  ]\n" := by
  refine ⟨by decide, by decide⟩

/-- C7, amended: for every array Field whose representative child has type object, rendered
at indent level d with name n and count N, `format` emits the opening line `{indent}n: [`
(with ` (N items)` appended when N > 1), then the line `{indent}  {`, then the child object's
children rendered at indent level d+2, then the line `{indent}  }`, then the closing line
`{indent}]`. -/
theorem array_of_objects_rendering (quote : GoString → GoString) (outOfRange : ℚ → Int)
    (f child : Field) (rest : List Field) (sb : GoString) (d : Nat)
    (harr : f.Type_ = .TypeArray) (hchildren : f.Children = child :: rest)
    (hobj : child.Type_ = .TypeObject) :
    f.format quote outOfRange sb d =
      sb ++ (Repeat (str "  ") d ++ f.Name ++ str ": ["
              ++ (if f.Count > 1 then str " (" ++ fmtInt f.Count ++ str " items)" else [])
              ++ str "\n")
        ++ (Repeat (str "  ") d ++ str "  \x7b\n")
        ++ formatEach quote outOfRange child.Children [] (d + 2)
        ++ (Repeat (str "  ") d ++ str "  \x7d\n")
        ++ (Repeat (str "  ") d ++ str "]\n") := by
  obtain ⟨name, type, children, ex, count⟩ := f
  obtain ⟨cname, ctype, grandchildren, cex, ccount⟩ := child
  simp only at harr hchildren hobj
  subst harr hchildren hobj
  simp only [Field.format]
  rw [formatEach_append]

theorem array_of_objects_rendering_witness :
    fieldArrayOfObjects.Type_ = .TypeArray ∧
    fieldArrayOfObjects.format id (fun _ => 0) [] 1 =
      [] ++ (Repeat (str "  ") 1 ++ fieldArrayOfObjects.Name ++ str ": ["
              ++ (if fieldArrayOfObjects.Count > 1 then
                    str " (" ++ fmtInt fieldArrayOfObjects.Count ++ str " items)" else [])
              ++ str "\n")
        ++ (Repeat (str "  ") 1 ++ str "  \x7b\n")
        ++ formatEach id (fun _ => 0)
            [{ Name := str "x", Type_ := .TypeNull, Children := [], Example := .nil,
               Count := 1 }] [] (1 + 2)
        ++ (Repeat (str "  ") 1 ++ str "  \x7d\n")
        ++ (Repeat (str "  ") 1 ++ str "]\n") :=
  ⟨rfl, array_of_objects_rendering id (fun _ => 0) fieldArrayOfObjects
    { Name := str "[item]", Type_ := .TypeObject,
      Children := [{ Name := str "x", Type_ := .TypeNull, Children := [], Example := .nil,
                     Count := 1 }],
      Example := .nil, Count := 1 } [] [] 1 rfl rfl rfl⟩

/-! ### C8 -/

theorem intOfFloat64_one (outOfRange : ℚ → Int) : intOfFloat64 outOfRange 1 = 1 := by
  unfold intOfFloat64
  rw [if_pos (by decide)]
  decide

theorem exampleText_one (quote : GoString → GoString) (outOfRange : ℚ → Int) :
    exampleText quote outOfRange (.float64 1) = str " // e.g. 1" := by
  simp only [exampleText, intOfFloat64_one]
  rw [if_pos (by decide)]
  decide

theorem String_of_AnalyzeJSON {ε : Type} (unmarshal : GoString → Except ε Value)
    (quote : GoString → GoString) (outOfRange : ℚ → Int) (data : GoString) (doc : Value)
    (hdec : unmarshal data = .ok doc) :
    (AnalyzeJSON unmarshal data).1.map (Schema.String quote outOfRange) =
      some ((run (str "root") doc).1.format quote outOfRange [] 0) := by
  rw [AnalyzeJSON_ok unmarshal data doc hdec]
  rfl

theorem run_docRootKey :
    (run (str "root") docRootKey).1 =
      { Name := str "root", Type_ := .TypeObject,
        Children := [{ Name := str "root", Type_ := .TypeObject,
                       Children := [{ Name := str "a", Type_ := .TypeNumber, Children := [],
                                      Example := .float64 1, Count := 1 }],
                       Example := .nil, Count := 1 }],
        Example := .nil, Count := 1 } := by
  rfl

/-- C8: the code contradicts the claim on an object stored under the key `root`. For the
document `{"root": {"a": 1}}` the inner object is not the Schema's Root, and `String()` renders
it as a bare `{` line with a closing `}` that has no indent and no newline, where the claim has
the lines `  root: {` and `  }`. -/
theorem object_under_root_key_rendering (quote : GoString → GoString) (outOfRange : ℚ → Int) :
    sampleUnmarshal (str "\x7b\"root\": \x7b\"a\": 1\x7d\x7d") = .ok docRootKey ∧
      (AnalyzeJSON sampleUnmarshal (str "\x7b\"root\": \x7b\"a\": 1\x7d\x7d")).1.map
          (Schema.String quote outOfRange) =
        some (str "\x7b\n\x7b\n    a: number // e.g. 1\n\x7d\x7d") ∧
      str "\x7b\n\x7b\n    a: number // e.g. 1\n\x7d\x7d" ≠
        str "\x7b\n  root: \x7b\n    a: number // e.g. 1\n  \x7d\n\x7d" := by
  refine ⟨rfl, ?_, by decide⟩
  rw [String_of_AnalyzeJSON sampleUnmarshal quote outOfRange
    (str "\x7b\"root\": \x7b\"a\": 1\x7d\x7d") docRootKey rfl, run_docRootKey]
  simp only [Field.format, formatEach, exampleText_one, if_true]
  decide

/-! ### C9 -/

theorem bitLenAux_lt : ∀ (fuel n : Nat), n ≤ fuel → n < 2 ^ bitLenAux fuel n
  | 0, n, h => by
    have : n = 0 := by omega
    subst this
    simp [bitLenAux]
  | fuel + 1, n, h => by
    by_cases hn : n = 0
    · subst hn
      simp [bitLenAux]
    · have ih := bitLenAux_lt fuel (n / 2) (by omega)
      simp only [bitLenAux, hn, if_false]
      rw [Nat.pow_add, Nat.pow_one]
      omega

theorem bitLenAux_ge : ∀ (fuel n : Nat), n ≤ fuel → n ≠ 0 → 2 ^ (bitLenAux fuel n - 1) ≤ n
  | 0, n, h, hn => by omega
  | fuel + 1, n, h, hn => by
    simp only [bitLenAux, hn, if_false]
    by_cases h2 : n / 2 = 0
    · have h1 : n = 1 := by omega
      subst h1
      cases fuel <;> simp [bitLenAux]
    · have ih := bitLenAux_ge fuel (n / 2) (by omega) h2
      have hpos : bitLenAux fuel (n / 2) ≠ 0 := by
        cases fuel with
        | zero => omega
        | succ f => simp [bitLenAux, h2]
      have : 1 + bitLenAux fuel (n / 2) - 1 = (bitLenAux fuel (n / 2) - 1) + 1 := by omega
      rw [this, Nat.pow_add, Nat.pow_one]
      omega

/-- A natural number below `2^63` rounds to at most `2^63`. -/
theorem roundToSignificand_le (n : Nat) (h : n < 2 ^ 63) : roundToSignificand n ≤ 2 ^ 63 := by
  have hlt : n < 2 ^ bitLen n := bitLenAux_lt n n (Nat.le_refl n)
  have hb : bitLen n ≤ 63 := by
    by_cases hn : n = 0
    · subst hn
      decide
    · have hge : 2 ^ (bitLen n - 1) ≤ n := bitLenAux_ge n n (Nat.le_refl n) hn
      have hlt' : 2 ^ (bitLen n - 1) < 2 ^ 63 := Nat.lt_of_le_of_lt hge h
      have := (Nat.pow_lt_pow_iff_right (by decide : 1 < 2)).1 hlt'
      omega
  unfold roundToSignificand
  generalize bitLen n = b at hlt hb
  interval_cases b <;> simp only [Nat.reduceSub, Nat.reducePow, Nat.pow_zero] at hlt ⊢ <;>
    split <;> omega

theorem float64OfInt_le (i : Int) (h : i < 2 ^ 63) : float64OfInt i ≤ 2 ^ 63 := by
  unfold float64OfInt
  split
  · have h0 : (0 : Int) ≤ (roundToSignificand i.natAbs : Int) := Int.ofNat_nonneg _
    have h1 : ((-(roundToSignificand i.natAbs : Int) : Int) : ℚ) ≤ 0 := by
      exact_mod_cast (by omega : -(roundToSignificand i.natAbs : Int) ≤ 0)
    exact le_trans h1 (by norm_num)
  · have hn : i.natAbs < 2 ^ 63 := by omega
    have := roundToSignificand_le i.natAbs hn
    exact_mod_cast this

theorem wrapInt64_lt (i : Int) : wrapInt64 i < 2 ^ 63 := by
  unfold wrapInt64
  omega

theorem intOfFloat64_big (outOfRange : ℚ → Int) :
    intOfFloat64 outOfRange 10000000000000000000
      = wrapInt64 (outOfRange 10000000000000000000) := by
  unfold intOfFloat64
  rw [if_neg (by decide)]

theorem exampleText_big (quote : GoString → GoString) (outOfRange : ℚ → Int) :
    exampleText quote outOfRange (.float64 10000000000000000000)
      = str " // e.g. 10000000000000000000.00" := by
  have hle := float64OfInt_le (wrapInt64 (outOfRange 10000000000000000000)) (wrapInt64_lt _)
  have hne : (10000000000000000000 : ℚ)
      ≠ float64OfInt (wrapInt64 (outOfRange 10000000000000000000)) := by
    intro heq
    rw [← heq] at hle
    norm_num at hle
  simp only [exampleText, intOfFloat64_big, if_neg hne]
  decide

theorem run_docBigCount :
    (run (str "root") docBigCount).1 =
      { Name := str "root", Type_ := .TypeObject,
        Children := [{ Name := str "count", Type_ := .TypeNumber, Children := [],
                       Example := .float64 10000000000000000000, Count := 1 }],
        Example := .nil, Count := 1 } := by
  rfl

/-- C9: the code contradicts the claim on an integral number of large magnitude. The number
`1e19` of the document `{"count": 1e19}` is integral, and, whatever the implementation makes of
the out-of-range conversion `int(e)`, `String()` renders it with two decimals, as
`10000000000000000000.00`, where the claim has `10000000000000000000`. -/
theorem big_integral_number_rendering (quote : GoString → GoString) (outOfRange : ℚ → Int) :
    sampleUnmarshal (str "\x7b\"count\": 1e19\x7d") = .ok docBigCount ∧
      (AnalyzeJSON sampleUnmarshal (str "\x7b\"count\": 1e19\x7d")).1.map
          (Schema.String quote outOfRange) =
        some (str "\x7b\n  count: number // e.g. 10000000000000000000.00\n\x7d") ∧
      str "\x7b\n  count: number // e.g. 10000000000000000000.00\n\x7d" ≠
        str "\x7b\n  count: number // e.g. 10000000000000000000\n\x7d" := by
  refine ⟨rfl, ?_, by decide⟩
  rw [String_of_AnalyzeJSON sampleUnmarshal quote outOfRange
    (str "\x7b\"count\": 1e19\x7d") docBigCount rfl, run_docBigCount]
  simp only [Field.format, formatEach, exampleText_big, if_true]
  decide

end analyzer

namespace client

/-! ### C10 -/

/-- C10, as stated, fails: a response without a `Content-Type` header whose body is
` {"a":1}` has `{` as its first non-whitespace byte, and `IsJSON` returns false. -/
theorem isJSON_leading_whitespace_counterexample :
    Header.Get resultLeadingSpace.Headers (str "Content-Type") ∉ acceptedContentTypes ∧
      firstNonWhitespace resultLeadingSpace.Body = some '{'.toNat ∧
      resultLeadingSpace.IsJSON = false := by
  refine ⟨by decide, by decide, by decide⟩

/-- C10, amended: for every Result, `IsJSON` returns true if and only if the `Content-Type`
header value is one of the four accepted `application/json` variants or the first byte of the
body is `{` or `[`. -/
theorem isJSON_iff (r : Result) :
    r.IsJSON = true ↔
      Header.Get r.Headers (str "Content-Type") ∈ acceptedContentTypes ∨
        r.Body.head? = some '{'.toNat ∨ r.Body.head? = some '['.toNat := by
  obtain ⟨headers, body⟩ := r
  cases body with
  | nil => simp [Result.IsJSON, acceptedContentTypes, or_assoc]
  | cons b rest => simp [Result.IsJSON, acceptedContentTypes, or_assoc]

end client

namespace analyzer

/-! ### C11: arrays of scalars and of arrays -/

theorem analyzeValue_type (name : GoString) (value : Value) (depth : Nat) (schema : Schema) :
    (analyzeValue name value depth schema).1.Type_ = value.fieldType := by
  cases value with
  | null => rfl
  | bool _ => rfl
  | number _ => rfl
  | string v => by_cases h : v.length > 50 <;> simp [analyzeValue, h, Value.fieldType]
  | other => rfl
  | array items => cases items <;> rfl
  | object _ => rfl

/-- An array Field whose first child is not of type object is written as the single line
`{indent}{name}: [{child type}]`, followed by the count annotation when `Count > 1`. -/
theorem Field.format_array_of_non_object (quote : GoString → GoString)
    (outOfRange : ℚ → Int) (name : GoString) (child : Field) (rest : List Field) (ex : Any)
    (count : Nat) (sb : GoString) (d : Nat) (hchild : child.Type_ ≠ .TypeObject) :
    Field.format quote outOfRange
        { Name := name, Type_ := .TypeArray, Children := child :: rest, Example := ex,
          Count := count } sb d =
      sb ++ (Repeat (str "  ") d ++ name ++ str ": [" ++ child.Type_.toGoString ++ str "]"
        ++ (if count > 1 then str " (" ++ fmtInt count ++ str " items)" else [])
        ++ str "\n") := by
  obtain ⟨cname, ctype, cchildren, cex, ccount⟩ := child
  cases ctype <;> first
    | exact absurd rfl hchild
    | simp only [Field.format]

/-- An array Field without children is written as the single line `{indent}{name}: []`,
followed by the count annotation when `Count > 1`. -/
theorem Field.format_array_of_no_child (quote : GoString → GoString) (outOfRange : ℚ → Int)
    (name : GoString) (ex : Any) (count : Nat) (sb : GoString) (d : Nat) :
    Field.format quote outOfRange
        { Name := name, Type_ := .TypeArray, Children := [], Example := ex, Count := count }
        sb d =
      sb ++ (Repeat (str "  ") d ++ name ++ str ": []"
        ++ (if count > 1 then str " (" ++ fmtInt count ++ str " items)" else [])
        ++ str "\n") := by
  simp only [Field.format]

/-- C11: for every array value of length N analysed under name n by `analyzeValue` and then
rendered by `format` at indent level d, whose first element (if there is one) is not an
object: if N = 0 the text written is exactly the line `{indent}n: []`, with no count
annotation; if N >= 1 it is exactly the single line `{indent}n: [T]`, T being the type of the
first element, followed by ` (N items)` if and only if N > 1. -/
theorem array_rendering (quote : GoString → GoString) (outOfRange : ℚ → Int)
    (name : GoString) (items : List Value) (depth : Nat) (schema : Schema) (sb : GoString)
    (d : Nat) (hfirst : ∀ v0 rest, items = v0 :: rest → v0.fieldType ≠ .TypeObject) :
    (analyzeValue name (.array items) depth schema).1.format quote outOfRange sb d =
      match items with
      | [] => sb ++ (Repeat (str "  ") d ++ name ++ str ": []\n")
      | v0 :: _ =>
        sb ++ (Repeat (str "  ") d ++ name ++ str ": [" ++ v0.fieldType.toGoString ++ str "]"
          ++ (if items.length > 1 then str " (" ++ fmtInt items.length ++ str " items)" else [])
          ++ str "\n") := by
  cases items with
  | nil =>
    simp only [analyzeValue]
    rw [Field.format_array_of_no_child]
    simp
    decide
  | cons v0 rest =>
    have hty := analyzeValue_type (str "[item]") v0 (depth + 1)
      ((schema.noteDepth depth).addArrayItems (v0 :: rest).length)
    simp only [analyzeValue]
    rw [Field.format_array_of_non_object _ _ _ _ _ _ _ _ _
      (by rw [hty]; exact hfirst v0 rest rfl), hty]

theorem array_rendering_witness :
    (∀ v0 rest, [Value.number 1, Value.number 2, Value.number 3] = v0 :: rest →
        v0.fieldType ≠ .TypeObject) ∧
      (analyzeValue (str "b") (.array [.number 1, .number 2, .number 3]) 1
          Schema.fresh).1.format id (fun _ => 0) [] 1 =
        [] ++ (Repeat (str "  ") 1 ++ str "b" ++ str ": ["
          ++ (Value.number 1).fieldType.toGoString ++ str "]"
          ++ (if [Value.number 1, Value.number 2, Value.number 3].length > 1 then
                str " (" ++ fmtInt [Value.number 1, Value.number 2, Value.number 3].length
                  ++ str " items)" else [])
          ++ str "\n") ∧
      [] ++ (Repeat (str "  ") 1 ++ str "b" ++ str ": ["
          ++ (Value.number 1).fieldType.toGoString ++ str "]"
          ++ (if [Value.number 1, Value.number 2, Value.number 3].length > 1 then
                str " (" ++ fmtInt [Value.number 1, Value.number 2, Value.number 3].length
                  ++ str " items)" else [])
          ++ str "\n") = str "  b: [number] (3 items)\n" :=
  ⟨fun v0 rest h => by cases h; decide,
    array_rendering id (fun _ => 0) (str "b") [.number 1, .number 2, .number 3] 1
      Schema.fresh [] 1 (fun v0 rest h => by cases h; decide),
    by decide⟩

end analyzer
